import Mathlib

/-!
# A small shell: parsing, dispatch and job bookkeeping of `main.c`

The C program is embedded shallowly.  A C string is the list of its characters
before the terminating NUL.  The operating system is an explicit parameter
(`World`): the value every `fork`, `chdir`, `open` and `execvp` call returns.
Everything the interpreter does to the outside is appended to a trace of
`Event`s kept in the state, next to the two globals of the program.
-/

set_option maxRecDepth 100000

namespace Shell

/-- Contents of a NUL-terminated C string: the characters before the NUL. -/
abbrev CStr := List Char

/-- The constant `MAX_COMMAND_LENGTH` of `main.c`. -/
def MAX_COMMAND_LENGTH : Nat := 1024

/-- The constant `MAX_ARGUMENTS` of `main.c`. -/
def MAX_ARGUMENTS : Nat := 100

/-- The constant `MAX_BG_PROCESSES` of `main.c`. -/
def MAX_BG_PROCESSES : Nat := 100

/-! ## `strtok` -/

/-- One call of the C library tokenizer on the text that starts at the saved
position `s`: leading delimiters are skipped (`strspn`); if nothing is left the
call returns NULL (`none`); otherwise the token runs up to the next delimiter
(`strpbrk`), that delimiter is overwritten by NUL and the saved position moves
just behind it.  The second component is the text at the new saved position. -/
def strtok (delim : List Char) (s : CStr) : Option CStr × CStr :=
  match s.dropWhile (fun c => decide (c ∈ delim)) with
  | [] => (none, [])
  | c :: cs =>
    (some ((c :: cs).takeWhile (fun x => !decide (x ∈ delim))),
     ((c :: cs).dropWhile (fun x => !decide (x ∈ delim))).tail)

/-! ## `execute_command`: the parsing loop (lines 51-86) -/

/-- The locals of `execute_command` after (or during) the parsing loop.
`args` holds `args[0 .. arg_count-1]`, so `arg_count` is `args.length`. -/
structure Parsed where
  args : List CStr
  input_file : Option CStr
  output_file : Option CStr
  background : Bool
deriving DecidableEq

/-- Values of the locals at the declarations of lines 51-54. -/
def Parsed.init : Parsed :=
  { args := [], input_file := none, output_file := none, background := false }

/-- The `while (token != NULL && arg_count < MAX_ARGUMENTS - 1)` loop of
`execute_command`.  `token` is the current token, `saved` the text at the
tokenizer's saved position.  The first argument bounds the number of
iterations; `none` means the bound was too small. -/
def parse_loop : Nat → Option CStr → CStr → Parsed → Option Parsed
  | 0, _, _, _ => none
  | _ + 1, none, _, p => some p
  | fuel + 1, some token, saved, p =>
    if p.args.length < MAX_ARGUMENTS - 1 then
      if token = ['<'] then
        let r := strtok [' '] saved
        let p1 := match r.1 with
          | some t => { p with input_file := some t }
          | none => p
        let r2 := strtok [' '] r.2
        parse_loop fuel r2.1 r2.2 p1
      else if token = ['>'] then
        let r := strtok [' '] saved
        let p1 := match r.1 with
          | some t => { p with output_file := some t }
          | none => p
        let r2 := strtok [' '] r.2
        parse_loop fuel r2.1 r2.2 p1
      else if token = ['&'] then
        let r2 := strtok [' '] saved
        parse_loop fuel r2.1 r2.2 { p with background := true }
      else
        let r2 := strtok [' '] saved
        parse_loop fuel r2.1 r2.2 { p with args := p.args ++ [token] }
    else some p

/-- Lines 51-86 of `execute_command`: tokenise `command` on spaces and fill the
locals.  Every iteration consumes at least one character of the command, so
`command.length + 1` iterations always suffice (see `parse_command_total`). -/
def parse_command (command : CStr) : Option Parsed :=
  let r := strtok [' '] command
  parse_loop (command.length + 1) r.1 r.2 Parsed.init

/-! ## The reference parser of the specification -/

/-- The non-empty pieces of `s` between occurrences of the separator `d`. -/
def pieces (d : Char) (s : CStr) : List CStr :=
  (s.splitOn d).filter (fun w => decide (w ≠ []))

/-- The space-separated words of a command: split at every space and drop the
empty pieces. -/
def words (s : CStr) : List CStr := pieces ' ' s

/-- The non-empty `;`-separated segments of an input line. -/
def segments (s : CStr) : List CStr := pieces ';' s

/-- Left-to-right reference parser over a token list, following the wording of
the specification: `<` (resp. `>`) takes the next token, whatever it is, as the
input (resp. output) path; a trailing `<` or `>` is dropped; `&` sets the
background flag; any other token is appended to `argv`. -/
def ref_parse : List CStr → Parsed → Parsed
  | [], p => p
  | t :: rest, p =>
    if t = ['<'] then
      match rest with
      | [] => p
      | f :: rest2 => ref_parse rest2 { p with input_file := some f }
    else if t = ['>'] then
      match rest with
      | [] => p
      | f :: rest2 => ref_parse rest2 { p with output_file := some f }
    else if t = ['&'] then ref_parse rest { p with background := true }
    else ref_parse rest { p with args := p.args ++ [t] }

/-- The tokens that remain when every recognised marker is removed: `&`, and
`<` or `>` together with the file-name token it consumes. -/
def strip_markers : List CStr → List CStr
  | [] => []
  | t :: rest =>
    if t = ['<'] ∨ t = ['>'] then
      match rest with
      | [] => []
      | _ :: rest2 => strip_markers rest2
    else if t = ['&'] then strip_markers rest
    else t :: strip_markers rest

/-- The tokens still to be processed when the loop holds the token `tok` and
the tokenizer's saved position is at `saved`. -/
def remaining (d : Char) (tok : Option CStr) (saved : CStr) : List CStr :=
  match tok with
  | none => []
  | some t => t :: pieces d saved

/-- Whitespace-delimited tokens in the sense of the specification: split at
every whitespace character (space, tab, carriage return, newline) and drop the
empty pieces. -/
def whitespace_tokens (s : CStr) : List CStr :=
  (s.splitOnP Char.isWhitespace).filter (fun w => decide (w ≠ []))

/-! ## The outside world -/

/-- What the interpreter does to the outside, one constructor per library or
system call of `main.c`. -/
inductive Event
  | stdout (text : String)
  | perror (msg : String)
  | fgets (result : Option CStr)
  | getenv (name : String)
  | chdir (path : CStr)
  | fork (ret : Int)
  | waitpid (pid : Int)
  | open_read (path : CStr)
  | open_write (path : CStr)
  | dup2 (target : Nat)
  | close
  | execvp (file : CStr) (argv : List CStr)
  | exit (status : Nat)
deriving DecidableEq

/-- The answers of the operating system. `fork n` is the value returned by the
`n`-th call of `fork` (negative: failure, zero: we are the child, positive: the
child's pid seen by the parent); `home` is `getenv("HOME")`; `chdir`,
`open_read` and `open_write` give the return value of `chdir(path)`,
`open(path, O_RDONLY)` and `open(path, O_WRONLY | O_CREAT | O_TRUNC, 0644)`;
`execvp_returns file` tells whether `execvp` fails, which is the only way it
returns.  `sleep_bytes i` is the C string that a read through `commands[i]`
finds when that entry points to the block-local array `sleep`: the array's
lifetime has ended by then, so C does not say what is read and the model
leaves it to the world. -/
structure World where
  fork : Nat → Int
  home : Option CStr
  chdir : CStr → Int
  open_read : CStr → Int
  open_write : CStr → Int
  execvp_returns : CStr → Bool
  sleep_bytes : Nat → CStr

/-- Whether the process still runs the interpreter: it may have called `exit`,
or have been replaced by another program through `execvp`.  `out_of_fuel`
marks a loop of the model that ran out of its iteration bound; it never occurs
(`parse_command_total`, `split_commands_total`). -/
inductive Status
  | running
  | exited (code : Nat)
  | replaced
  | out_of_fuel
deriving DecidableEq

/-- An entry of the local array `commands`: a pointer to a segment of the input
line, or a pointer to the block-local array `sleep`. -/
inductive CmdRef
  | segment (text : CStr)
  | sleep
deriving DecidableEq

/-- The two globals of `main.c` (`background_processes`, `bg_process_count`),
the trace of events, the number of `fork` calls made so far, the process
status, and a log of the entries of `commands` that `parse_and_execute` has
passed to `execute_command`. -/
structure ShellState where
  background_processes : List Int
  bg_process_count : Nat
  trace : List Event
  forks : Nat
  status : Status
  dispatched : List CmdRef
deriving DecidableEq

/-- State at program start: the global array is zero-initialised and
`bg_process_count = 0`. -/
def ShellState.init : ShellState :=
  { background_processes := List.replicate MAX_BG_PROCESSES 0
    bg_process_count := 0
    trace := []
    forks := 0
    status := Status.running
    dispatched := [] }

/-- Append events to the trace. -/
def ShellState.emit (s : ShellState) (es : List Event) : ShellState :=
  { s with trace := s.trace ++ es }

/-- The function `print_prompt`. -/
def print_prompt (s : ShellState) : ShellState := s.emit [Event.stdout "> "]

/-! ## `execute_command`: dispatch and launch (lines 88-181) -/

/-- The child side of `execute_command` (the `pid == 0` branch, lines 126-162):
redirect standard input, then standard output, then `execvp`. -/
def child_branch (w : World) (p : Parsed) (file : CStr) (s : ShellState) : ShellState :=
  let s1 : ShellState := match p.input_file with
    | none => s
    | some f =>
      if w.open_read f < 0 then
        { s.emit [Event.open_read f, Event.perror "Input file error", Event.exit 1]
          with status := Status.exited 1 }
      else s.emit [Event.open_read f, Event.dup2 0, Event.close]
  if s1.status ≠ Status.running then s1 else
  let s2 : ShellState := match p.output_file with
    | none => s1
    | some f =>
      if w.open_write f < 0 then
        { s1.emit [Event.open_write f, Event.perror "Output file error", Event.exit 1]
          with status := Status.exited 1 }
      else s1.emit [Event.open_write f, Event.dup2 1, Event.close]
  if s2.status ≠ Status.running then s2 else
  if w.execvp_returns file then
    { s2.emit [Event.execvp file p.args, Event.perror "Command execution failed", Event.exit 1]
      with status := Status.exited 1 }
  else { s2.emit [Event.execvp file p.args] with status := Status.replaced }

/-- The parent side of `execute_command` (the `else` branch, lines 163-181). -/
def parent_branch (p : Parsed) (pid : Int) (s : ShellState) : ShellState :=
  if p.background then
    let s1 := s.emit [Event.stdout ("[PID " ++ toString pid ++ "] Running in background\n")]
    if s1.bg_process_count < MAX_BG_PROCESSES then
      { s1 with
        background_processes := s1.background_processes.set s1.bg_process_count pid
        bg_process_count := s1.bg_process_count + 1 }
    else s1
  else s.emit [Event.waitpid pid]

/-- Lines 88-181 of `execute_command`, run on the locals the parsing loop
produced. -/
def dispatch (w : World) (p : Parsed) (s : ShellState) : ShellState :=
  match p.args with
  | [] => s
  | a0 :: _ =>
    if a0 = "quit".toList then
      { s.emit [Event.stdout "Exiting shell...\n", Event.exit 0] with status := Status.exited 0 }
    else if a0 = "cd".toList then
      match p.args.tail with
      | [] =>
        match w.home with
        | none => s.emit [Event.getenv "HOME"]
        | some home =>
          if w.chdir home ≠ 0 then
            s.emit [Event.getenv "HOME", Event.chdir home, Event.perror "cd"]
          else s.emit [Event.getenv "HOME", Event.chdir home]
      | a1 :: _ =>
        if w.chdir a1 ≠ 0 then s.emit [Event.chdir a1, Event.perror "cd"]
        else s.emit [Event.chdir a1]
    else
      let pid := w.fork s.forks
      let s1 := { s.emit [Event.fork pid] with forks := s.forks + 1 }
      if pid < 0 then s1.emit [Event.perror "Fork failed"]
      else if pid = 0 then child_branch w p a0 s1
      else parent_branch p pid s1

/-- The function `execute_command`. -/
def execute_command (w : World) (command : CStr) (s : ShellState) : ShellState :=
  match parse_command command with
  | none => { s with status := Status.out_of_fuel }
  | some p => dispatch w p s

/-! ## `parse_and_execute` -/

/-- Contents the block-local array `sleep` is initialised with (line 205). -/
def sleep_text : CStr := "sleep 0.2".toList

/-- The splitting loop of `parse_and_execute` (lines 198-209).  `cmds` holds
`commands[0 .. command_count-1]`, so `command_count` is `cmds.length`; every
append is the write `commands[command_count++] = ...`. -/
def split_loop : Nat → Option CStr → CStr → List CmdRef → Option (List CmdRef)
  | 0, _, _, _ => none
  | _ + 1, none, _, cmds => some cmds
  | fuel + 1, some token, saved, cmds =>
    if cmds.length < MAX_ARGUMENTS - 1 then
      let cmds1 := cmds ++ [CmdRef.segment token]
      let cmds2 := if '<' ∈ token then cmds1 ++ [CmdRef.sleep] else cmds1
      let r := strtok [';'] saved
      split_loop fuel r.1 r.2 cmds2
    else some cmds

/-- Lines 194-209 of `parse_and_execute`: the entries queued in `commands`. -/
def split_commands (input : CStr) : Option (List CmdRef) :=
  let r := strtok [';'] input
  split_loop (input.length + 1) r.1 r.2 []

/-- The index of the terminator write `commands[command_count] = NULL`
(line 210): the final value of `command_count`. -/
def command_count (input : CStr) : Option Nat :=
  (split_commands input).map List.length

/-- The text a read through the entry `commands[i]` finds: the segment of the
input line it points to, or whatever the world holds where the expired array
`sleep` was. -/
def CmdRef.text (w : World) (i : Nat) : CmdRef → CStr
  | CmdRef.segment text => text
  | CmdRef.sleep => w.sleep_bytes i

/-- The dispatch loop of `parse_and_execute` (lines 212-223), from index `i`
on.  The loop stops when the process is no longer the running interpreter.
Every entry handed to `execute_command` is recorded in `dispatched`. -/
def run_commands (w : World) : Nat → List CmdRef → ShellState → ShellState
  | _, [], s => s
  | i, c :: rest, s =>
    if s.status ≠ Status.running then s
    else if '|' ∈ c.text w i then run_commands w (i + 1) rest s
    else
      run_commands w (i + 1) rest
        (execute_command w (c.text w i) { s with dispatched := s.dispatched ++ [c] })

/-- The function `parse_and_execute`. -/
def parse_and_execute (w : World) (input : CStr) (s : ShellState) : ShellState :=
  match split_commands input with
  | none => { s with status := Status.out_of_fuel }
  | some cmds => run_commands w 0 cmds s

/-! ## `main` -/

/-- The loop of `main` (lines 239-250), run for as many iterations as there are
results of `fgets` in the list (`none` is a NULL return, `some line` a line read
into `input`). -/
def main_loop : List (Option CStr) → ShellState → ShellState
  | [], s => s
  | r :: rest, s =>
    let s1 := (print_prompt s).emit [Event.fgets r]
    match r with
    | none => main_loop rest (s1.emit [Event.perror "Input reading failed"])
    | some _ => main_loop rest s1

/-- A world in which every `fork` succeeds in the parent with pid `1000 + n`,
every call succeeds, and the expired array `sleep` still reads `sleep 0.2`. -/
def World.friendly : World :=
  { fork := fun n => 1000 + (n : Int)
    home := some "/root".toList
    chdir := fun _ => 0
    open_read := fun _ => 3
    open_write := fun _ => 3
    execvp_returns := fun _ => false
    sleep_bytes := fun _ => sleep_text }

/-! ## Auxiliary definitions for the statements -/

/-- The state right after a `fork` call that returned `pid`. -/
def after_fork (pid : Int) (s : ShellState) : ShellState :=
  { s.emit [Event.fork pid] with forks := s.forks + 1 }

/-- The only way `execute_command` touches the job table: not at all, or by
the guarded write `background_processes[bg_process_count++] = pid`. -/
def TableStep (s t : ShellState) : Prop :=
  (t.background_processes = s.background_processes ∧ t.bg_process_count = s.bg_process_count) ∨
  (s.bg_process_count < MAX_BG_PROCESSES ∧
    (∃ pid : Int, t.background_processes = s.background_processes.set s.bg_process_count pid) ∧
    t.bg_process_count = s.bg_process_count + 1)

/-- How the job table of `t` relates to that of an earlier state `s` when only
guarded appends happened in between. -/
def TableLe (s t : ShellState) : Prop :=
  s.bg_process_count ≤ t.bg_process_count ∧
  t.background_processes.take s.bg_process_count =
    s.background_processes.take s.bg_process_count ∧
  t.background_processes.length = s.background_processes.length ∧
  (s.bg_process_count ≤ MAX_BG_PROCESSES → t.bg_process_count ≤ MAX_BG_PROCESSES) ∧
  (MAX_BG_PROCESSES ≤ s.bg_process_count →
    t.background_processes = s.background_processes ∧
    t.bg_process_count = s.bg_process_count)

/-- The entries the splitting loop queues for a list of segments: each segment,
followed by the `sleep` entry when the segment contains `<`. -/
def queue_of : List CStr → List CmdRef
  | [] => []
  | seg :: rest =>
    if '<' ∈ seg then CmdRef.segment seg :: CmdRef.sleep :: queue_of rest
    else CmdRef.segment seg :: queue_of rest

/-- Whether `argv[0]` of a command is `quit`: the first of its space-separated
words that is not a marker (or a file name consumed by one) is `quit`. -/
def is_quit (text : CStr) : Bool :=
  decide ((strip_markers (words text)).head? = some "quit".toList)

/-- The entries of a queue up to and including the first segment that is a
`quit` command; the whole queue when there is none. -/
def through_quit : List CmdRef → List CmdRef
  | [] => []
  | CmdRef.segment t :: rest =>
    if is_quit t then [CmdRef.segment t] else CmdRef.segment t :: through_quit rest
  | CmdRef.sleep :: rest => CmdRef.sleep :: through_quit rest

/-- States the interpreter can be in: the initial state, and any state reached
from one of them by a call of `execute_command`, by a call of
`parse_and_execute` or by iterations of the loop of `main`, whatever the
operating system answers. -/
inductive Reachable : ShellState → Prop
  | init : Reachable ShellState.init
  | command (w : World) (command : CStr) (s : ShellState) :
      Reachable s → Reachable (execute_command w command s)
  | line (w : World) (input : CStr) (s : ShellState) :
      Reachable s → Reachable (parse_and_execute w input s)
  | main (reads : List (Option CStr)) (s : ShellState) :
      Reachable s → Reachable (main_loop reads s)

/-- A state whose job table is full: pids `1 .. 100` are registered. -/
def ShellState.full : ShellState :=
  { ShellState.init with
    background_processes := (List.range MAX_BG_PROCESSES).map (fun i => (i : Int) + 1)
    bg_process_count := MAX_BG_PROCESSES }

/-- The line `a;a; ... ;a;<`: 98 segments `a` followed by the segment `<`. -/
def overflow_line : CStr := (List.replicate 98 ['a', ';']).flatten ++ ['<']

/-- Hand a sequence of input lines to `parse_and_execute`, one after the other. -/
def run_lines (w : World) (lines : List CStr) (s : ShellState) : ShellState :=
  lines.foldl (fun st line => parse_and_execute w line st) s

/-- A line of one hundred segments `a`, each followed by `;`. -/
def hundred_segments : CStr := (List.replicate 100 ['a', ';']).flatten

/-- A line of one hundred one-letter words. -/
def hundred_words : CStr := (List.replicate 100 ['a', ' ']).flatten

/-! ## The tokenizer against `splitOn` -/

theorem splitOnP_eq_takeWhile_cons (q : Char → Bool) (s : CStr) :
    s.splitOnP q = s.takeWhile (fun x => !q x) ::
      (match s.dropWhile (fun x => !q x) with
        | [] => []
        | _ :: r => r.splitOnP q) := by
  induction s with
  | nil => simp [List.splitOnP_nil]
  | cons x xs ih =>
    rw [List.splitOnP_cons]
    by_cases hx : q x = true
    · simp [hx]
    · simp only [hx]
      rw [ih]
      simp [List.modifyHead, hx]

theorem pieces_nil (d : Char) : pieces d [] = [] := by
  simp [pieces, List.splitOn, List.splitOnP_nil]

theorem pieces_cons_sep (d : Char) (s : CStr) : pieces d (d :: s) = pieces d s := by
  simp [pieces, List.splitOn, List.splitOnP_cons]

theorem pieces_cons_ne (d c : Char) (s : CStr) (h : c ≠ d) :
    pieces d (c :: s) = (c :: s).takeWhile (fun x => !decide (x ∈ [d])) ::
      pieces d ((c :: s).dropWhile (fun x => !decide (x ∈ [d]))).tail := by
  have hfun : (fun x => !decide (x ∈ [d])) = (fun x => !(x == d)) := by
    funext x; simp only [List.mem_singleton]; rfl
  rw [hfun]
  unfold pieces List.splitOn
  rw [splitOnP_eq_takeWhile_cons]
  have hc : (c == d) = false := by simpa using h
  rw [List.filter_cons_of_pos (by simp [List.takeWhile_cons, hc])]
  congr 1
  cases hd : List.dropWhile (fun x => !(x == d)) (c :: s) with
  | nil => simp [List.splitOnP_nil]
  | cons y r => simp

/-- What one `strtok` call returns, in terms of the pieces of the text. -/
theorem strtok_spec (d : Char) (s : CStr) :
    (strtok [d] s = (none, []) ∧ pieces d s = []) ∨
    (∃ t r, strtok [d] s = (some t, r) ∧ pieces d s = t :: pieces d r ∧
      r.length < s.length ∧ t ≠ [] ∧ d ∉ t) := by
  induction s with
  | nil => left; simp [strtok, pieces_nil]
  | cons c cs ih =>
    by_cases hc : c = d
    · subst hc
      have hst : strtok [c] (c :: cs) = strtok [c] cs := by simp [strtok]
      rw [hst, pieces_cons_sep]
      rcases ih with h | ⟨t, r, h1, h2, h3, h4⟩
      · left; exact h
      · right; exact ⟨t, r, h1, h2, by simp; omega, h4⟩
    · right
      refine ⟨(c :: cs).takeWhile (fun x => !decide (x ∈ [d])),
        ((c :: cs).dropWhile (fun x => !decide (x ∈ [d]))).tail, ?_, ?_, ?_, ?_, ?_⟩
      · simp [strtok, hc]
      · exact pieces_cons_ne d c cs hc
      · have h2 : List.dropWhile (fun x => !decide (x ∈ [d])) (c :: cs)
            = List.dropWhile (fun x => !decide (x ∈ [d])) cs := by simp [hc]
        have h3 := (List.dropWhile_sublist (fun x => !decide (x ∈ [d])) (l := cs)).length_le
        rw [h2]
        simp only [List.length_tail, List.length_cons]
        omega
      · simp [List.takeWhile_cons, hc]
      · intro hmem
        have := List.mem_takeWhile_imp hmem
        simp at this

theorem pieces_length_le (d : Char) (s : CStr) : (pieces d s).length ≤ s.length := by
  generalize h : s.length = n
  induction n using Nat.strong_induction_on generalizing s with
  | _ n ih =>
    rcases strtok_spec d s with ⟨_, h2⟩ | ⟨t, r, _, h2, h3, _, _⟩
    · rw [h2]; simp
    · rw [h2]
      have := ih r.length (by omega) r rfl
      simp only [List.length_cons]
      omega

theorem remaining_strtok (saved : CStr) :
    remaining ' ' (strtok [' '] saved).1 (strtok [' '] saved).2 = words saved := by
  rcases strtok_spec ' ' saved with ⟨h1, h2⟩ | ⟨t, r, h1, h2, _, _, _⟩
  · rw [h1]; simp [remaining, words, h2]
  · rw [h1]; simp [remaining, words, h2]

theorem strtok_nil (delim : List Char) : strtok delim [] = (none, []) := rfl

theorem parse_loop_none (fuel : Nat) (saved : CStr) (p : Parsed) :
    parse_loop (fuel + 1) none saved p = some p := rfl

theorem parse_loop_full (fuel : Nat) (token saved : CStr) (p : Parsed)
    (h : ¬ p.args.length < MAX_ARGUMENTS - 1) :
    parse_loop (fuel + 1) (some token) saved p = some p := by
  simp [parse_loop, h]

theorem parse_loop_lt (fuel : Nat) (saved : CStr) (p : Parsed)
    (h : p.args.length < MAX_ARGUMENTS - 1) :
    parse_loop (fuel + 1) (some ['<']) saved p =
      parse_loop fuel (strtok [' '] (strtok [' '] saved).2).1 (strtok [' '] (strtok [' '] saved).2).2
        (match (strtok [' '] saved).1 with
          | some t => { p with input_file := some t }
          | none => p) := by
  simp [parse_loop, h]

theorem parse_loop_gt (fuel : Nat) (saved : CStr) (p : Parsed)
    (h : p.args.length < MAX_ARGUMENTS - 1) :
    parse_loop (fuel + 1) (some ['>']) saved p =
      parse_loop fuel (strtok [' '] (strtok [' '] saved).2).1 (strtok [' '] (strtok [' '] saved).2).2
        (match (strtok [' '] saved).1 with
          | some t => { p with output_file := some t }
          | none => p) := by
  simp [parse_loop, h]

theorem parse_loop_amp (fuel : Nat) (saved : CStr) (p : Parsed)
    (h : p.args.length < MAX_ARGUMENTS - 1) :
    parse_loop (fuel + 1) (some ['&']) saved p =
      parse_loop fuel (strtok [' '] saved).1 (strtok [' '] saved).2
        { p with background := true } := by
  simp [parse_loop, h]

theorem parse_loop_word (fuel : Nat) (token saved : CStr) (p : Parsed)
    (h : p.args.length < MAX_ARGUMENTS - 1)
    (h1 : token ≠ ['<']) (h2 : token ≠ ['>']) (h3 : token ≠ ['&']) :
    parse_loop (fuel + 1) (some token) saved p =
      parse_loop fuel (strtok [' '] saved).1 (strtok [' '] saved).2
        { p with args := p.args ++ [token] } := by
  simp [parse_loop, h, h1, h2, h3]

theorem ref_parse_lt_nil (p : Parsed) : ref_parse [['<']] p = p := by
  simp [ref_parse]

theorem ref_parse_lt_cons (f : CStr) (rest : List CStr) (p : Parsed) :
    ref_parse (['<'] :: f :: rest) p = ref_parse rest { p with input_file := some f } := by
  conv_lhs => rw [ref_parse.eq_def]
  simp

theorem ref_parse_gt_nil (p : Parsed) : ref_parse [['>']] p = p := by
  simp [ref_parse]

theorem ref_parse_gt_cons (f : CStr) (rest : List CStr) (p : Parsed) :
    ref_parse (['>'] :: f :: rest) p = ref_parse rest { p with output_file := some f } := by
  conv_lhs => rw [ref_parse.eq_def]
  simp

theorem ref_parse_amp (rest : List CStr) (p : Parsed) :
    ref_parse (['&'] :: rest) p = ref_parse rest { p with background := true } := by
  conv_lhs => rw [ref_parse.eq_def]
  simp

theorem ref_parse_word (t : CStr) (rest : List CStr) (p : Parsed)
    (h1 : t ≠ ['<']) (h2 : t ≠ ['>']) (h3 : t ≠ ['&']) :
    ref_parse (t :: rest) p = ref_parse rest { p with args := p.args ++ [t] } := by
  conv_lhs => rw [ref_parse.eq_def]
  simp [h1, h2, h3]

/-- The parsing loop agrees with the reference parser as long as the bound on
`arg_count` cannot be reached. -/
theorem parse_loop_eq_ref (fuel : Nat) : ∀ (tok : Option CStr) (saved : CStr) (p : Parsed),
    (remaining ' ' tok saved).length < fuel →
    p.args.length + (remaining ' ' tok saved).length ≤ MAX_ARGUMENTS - 1 →
    parse_loop fuel tok saved p = some (ref_parse (remaining ' ' tok saved) p) := by
  induction fuel with
  | zero => intro tok saved p h; omega
  | succ fuel ih =>
    intro tok saved p hf hb
    cases tok with
    | none => simp [parse_loop, remaining, ref_parse]
    | some token =>
      have hrem : remaining ' ' (some token) saved = token :: words saved := rfl
      rw [hrem] at hf hb ⊢
      simp only [List.length_cons] at hf hb
      have hguard : p.args.length < MAX_ARGUMENTS - 1 := by omega
      by_cases h1 : token = ['<']
      · subst h1
        rw [parse_loop_lt _ _ _ hguard]
        rcases strtok_spec ' ' saved with ⟨h3, h4⟩ | ⟨f, r, h3, h4, _⟩
        · have hw : words saved = [] := h4
          rw [h3, hw, ref_parse_lt_nil, strtok_nil]
          exact ih none [] p (by simp [remaining]; omega) (by simp [remaining]; omega)
        · have hw : words saved = f :: words r := h4
          rw [hw] at hf hb
          simp only [List.length_cons] at hf hb
          rw [h3, hw, ref_parse_lt_cons]
          have hr := remaining_strtok r
          have := ih (strtok [' '] r).1 (strtok [' '] r).2 { p with input_file := some f }
            (by rw [hr]; omega) (by rw [hr]; simp only []; omega)
          rw [hr] at this
          exact this
      · by_cases h2 : token = ['>']
        · subst h2
          rw [parse_loop_gt _ _ _ hguard]
          rcases strtok_spec ' ' saved with ⟨h3, h4⟩ | ⟨f, r, h3, h4, _⟩
          · have hw : words saved = [] := h4
            rw [h3, hw, ref_parse_gt_nil, strtok_nil]
            exact ih none [] p (by simp [remaining]; omega) (by simp [remaining]; omega)
          · have hw : words saved = f :: words r := h4
            rw [hw] at hf hb
            simp only [List.length_cons] at hf hb
            rw [h3, hw, ref_parse_gt_cons]
            have hr := remaining_strtok r
            have := ih (strtok [' '] r).1 (strtok [' '] r).2 { p with output_file := some f }
              (by rw [hr]; omega) (by rw [hr]; simp only []; omega)
            rw [hr] at this
            exact this
        · have hr := remaining_strtok saved
          by_cases h3 : token = ['&']
          · subst h3
            rw [parse_loop_amp _ _ _ hguard, ref_parse_amp]
            have := ih (strtok [' '] saved).1 (strtok [' '] saved).2 { p with background := true }
              (by rw [hr]; omega) (by rw [hr]; simp only []; omega)
            rw [hr] at this
            exact this
          · rw [parse_loop_word _ _ _ _ hguard h1 h2 h3, ref_parse_word _ _ _ h1 h2 h3]
            have := ih (strtok [' '] saved).1 (strtok [' '] saved).2
              { p with args := p.args ++ [token] }
              (by rw [hr]; omega) (by rw [hr]; simp only [List.length_append, List.length_singleton]; omega)
            rw [hr] at this
            exact this

theorem strip_markers_lt_nil : strip_markers [['<']] = [] := by
  simp [strip_markers]

theorem strip_markers_gt_nil : strip_markers [['>']] = [] := by
  simp [strip_markers]

theorem strip_markers_lt_cons (f : CStr) (rest : List CStr) :
    strip_markers (['<'] :: f :: rest) = strip_markers rest := by
  conv_lhs => rw [strip_markers.eq_def]
  simp

theorem strip_markers_gt_cons (f : CStr) (rest : List CStr) :
    strip_markers (['>'] :: f :: rest) = strip_markers rest := by
  conv_lhs => rw [strip_markers.eq_def]
  simp

theorem strip_markers_amp (rest : List CStr) :
    strip_markers (['&'] :: rest) = strip_markers rest := by
  conv_lhs => rw [strip_markers.eq_def]
  simp

theorem strip_markers_word (t : CStr) (rest : List CStr)
    (h1 : t ≠ ['<']) (h2 : t ≠ ['>']) (h3 : t ≠ ['&']) :
    strip_markers (t :: rest) = t :: strip_markers rest := by
  conv_lhs => rw [strip_markers.eq_def]
  simp [h1, h2, h3]

theorem take_append_full (l₁ l₂ : List CStr) (n : Nat) (h : l₁.length = n) :
    (l₁ ++ l₂).take n = l₁ := by
  rw [List.take_append_of_le_length (by omega), List.take_of_length_le (by omega)]

/-- The parsing loop always ends, and `args` then holds the tokens that are not
markers, cut off at `MAX_ARGUMENTS - 1` entries. -/
theorem parse_loop_args (fuel : Nat) : ∀ (tok : Option CStr) (saved : CStr) (p : Parsed),
    (remaining ' ' tok saved).length < fuel →
    p.args.length ≤ MAX_ARGUMENTS - 1 →
    ∃ q, parse_loop fuel tok saved p = some q ∧
      q.args = (p.args ++ strip_markers (remaining ' ' tok saved)).take (MAX_ARGUMENTS - 1) := by
  induction fuel with
  | zero => intro tok saved p h; omega
  | succ fuel ih =>
    intro tok saved p hf hb
    cases tok with
    | none =>
      refine ⟨p, rfl, ?_⟩
      simp only [remaining, strip_markers, List.append_nil]
      rw [List.take_of_length_le hb]
    | some token =>
      have hrem : remaining ' ' (some token) saved = token :: words saved := rfl
      rw [hrem] at hf ⊢
      simp only [List.length_cons] at hf
      by_cases hguard : p.args.length < MAX_ARGUMENTS - 1
      · by_cases h1 : token = ['<']
        · subst h1
          rw [parse_loop_lt _ _ _ hguard]
          rcases strtok_spec ' ' saved with ⟨h3, h4⟩ | ⟨f, r, h3, h4, _⟩
          · have hw : words saved = [] := h4
            rw [h3, hw, strip_markers_lt_nil, strtok_nil]
            exact ih none [] p (by simp [remaining]; omega) hb
          · have hw : words saved = f :: words r := h4
            rw [hw] at hf
            simp only [List.length_cons] at hf
            rw [h3, hw, strip_markers_lt_cons]
            have hr := remaining_strtok r
            have := ih (strtok [' '] r).1 (strtok [' '] r).2 { p with input_file := some f }
              (by rw [hr]; omega) hb
            rw [hr] at this
            exact this
        · by_cases h2 : token = ['>']
          · subst h2
            rw [parse_loop_gt _ _ _ hguard]
            rcases strtok_spec ' ' saved with ⟨h3, h4⟩ | ⟨f, r, h3, h4, _⟩
            · have hw : words saved = [] := h4
              rw [h3, hw, strip_markers_gt_nil, strtok_nil]
              exact ih none [] p (by simp [remaining]; omega) hb
            · have hw : words saved = f :: words r := h4
              rw [hw] at hf
              simp only [List.length_cons] at hf
              rw [h3, hw, strip_markers_gt_cons]
              have hr := remaining_strtok r
              have := ih (strtok [' '] r).1 (strtok [' '] r).2 { p with output_file := some f }
                (by rw [hr]; omega) hb
              rw [hr] at this
              exact this
          · have hr := remaining_strtok saved
            by_cases h3 : token = ['&']
            · subst h3
              rw [parse_loop_amp _ _ _ hguard, strip_markers_amp]
              have := ih (strtok [' '] saved).1 (strtok [' '] saved).2 { p with background := true }
                (by rw [hr]; omega) hb
              rw [hr] at this
              exact this
            · rw [parse_loop_word _ _ _ _ hguard h1 h2 h3, strip_markers_word _ _ h1 h2 h3]
              have := ih (strtok [' '] saved).1 (strtok [' '] saved).2
                { p with args := p.args ++ [token] }
                (by rw [hr]; omega)
                (by simp only [List.length_append, List.length_singleton]; omega)
              rw [hr] at this
              simpa using this
      · rw [parse_loop_full _ _ _ _ hguard]
        refine ⟨p, rfl, ?_⟩
        rw [take_append_full _ _ _ (by omega)]

/-- The parsing loop of `execute_command` terminates on every command, and the
resulting `args` are the non-marker tokens, at most `MAX_ARGUMENTS - 1` of
them. -/
theorem parse_command_total (command : CStr) :
    ∃ q, parse_command command = some q ∧
      q.args = (strip_markers (words command)).take (MAX_ARGUMENTS - 1) := by
  unfold parse_command
  have hr := remaining_strtok command
  have hl := pieces_length_le ' ' command
  have := parse_loop_args (command.length + 1) (strtok [' '] command).1
    (strtok [' '] command).2 Parsed.init (by rw [hr]; unfold words; omega)
    (by simp [Parsed.init])
  rw [hr] at this
  simpa [Parsed.init] using this

/-! ## Dispatch: the cases of `execute_command` after parsing -/

theorem dispatch_nil (w : World) (p : Parsed) (s : ShellState) (h : p.args = []) :
    dispatch w p s = s := by
  simp [dispatch, h]

theorem dispatch_quit (w : World) (p : Parsed) (s : ShellState) (rest : List CStr)
    (h : p.args = "quit".toList :: rest) :
    dispatch w p s =
      { s with
        trace := s.trace ++ [Event.stdout "Exiting shell...\n", Event.exit 0]
        status := Status.exited 0 } := by
  simp [dispatch, h, ShellState.emit]

theorem dispatch_cd (w : World) (p : Parsed) (s : ShellState) (rest : List CStr)
    (h : p.args = "cd".toList :: rest) :
    ∃ es, dispatch w p s = s.emit es := by
  have hne : ¬ ("cd".toList = "quit".toList) := by decide
  unfold dispatch
  rw [h]
  simp only [hne, if_false, if_true]
  (repeat' split) <;> exact ⟨_, rfl⟩

theorem dispatch_external (w : World) (p : Parsed) (s : ShellState) (a0 : CStr)
    (rest : List CStr) (h : p.args = a0 :: rest)
    (hq : a0 ≠ "quit".toList) (hcd : a0 ≠ "cd".toList) :
    dispatch w p s =
      if w.fork s.forks < 0 then
        (after_fork (w.fork s.forks) s).emit [Event.perror "Fork failed"]
      else if w.fork s.forks = 0 then
        child_branch w p a0 (after_fork (w.fork s.forks) s)
      else parent_branch p (w.fork s.forks) (after_fork (w.fork s.forks) s) := by
  unfold dispatch
  rw [h]
  simp only []
  rw [if_neg hq, if_neg hcd]
  rfl

theorem child_branch_globals (w : World) (p : Parsed) (file : CStr) (s : ShellState) :
    (child_branch w p file s).background_processes = s.background_processes ∧
    (child_branch w p file s).bg_process_count = s.bg_process_count ∧
    (child_branch w p file s).dispatched = s.dispatched := by
  unfold child_branch
  cases p.input_file <;> cases p.output_file <;> simp only [ShellState.emit] <;>
    (repeat' split) <;> simp_all

theorem parent_branch_dispatched (p : Parsed) (pid : Int) (s : ShellState) :
    (parent_branch p pid s).dispatched = s.dispatched := by
  unfold parent_branch
  simp only [ShellState.emit]
  (repeat' split) <;> rfl

theorem parent_branch_table (p : Parsed) (pid : Int) (s : ShellState) :
    TableStep s (parent_branch p pid s) := by
  unfold parent_branch TableStep
  simp only [ShellState.emit]
  split_ifs with hb hc
  · right; exact ⟨hc, ⟨pid, rfl⟩, rfl⟩
  · left; exact ⟨rfl, rfl⟩
  · left; exact ⟨rfl, rfl⟩

theorem dispatch_frame (w : World) (p : Parsed) (s : ShellState) :
    TableStep s (dispatch w p s) ∧ (dispatch w p s).dispatched = s.dispatched := by
  cases hargs : p.args with
  | nil => rw [dispatch_nil w p s hargs]; exact ⟨Or.inl ⟨rfl, rfl⟩, rfl⟩
  | cons a0 rest =>
    by_cases hq : a0 = "quit".toList
    · subst hq
      rw [dispatch_quit w p s rest hargs]; exact ⟨Or.inl ⟨rfl, rfl⟩, rfl⟩
    · by_cases hcd : a0 = "cd".toList
      · subst hcd
        obtain ⟨es, he⟩ := dispatch_cd w p s rest hargs
        rw [he]; exact ⟨Or.inl ⟨rfl, rfl⟩, rfl⟩
      · rw [dispatch_external w p s a0 rest hargs hq hcd]
        split_ifs
        · exact ⟨Or.inl ⟨rfl, rfl⟩, rfl⟩
        · have h := child_branch_globals w p a0 (after_fork (w.fork s.forks) s)
          exact ⟨Or.inl ⟨h.1, h.2.1⟩, h.2.2⟩
        · exact ⟨parent_branch_table p _ (after_fork (w.fork s.forks) s),
            parent_branch_dispatched p _ _⟩

theorem execute_command_frame (w : World) (command : CStr) (s : ShellState) :
    TableStep s (execute_command w command s) ∧
      (execute_command w command s).dispatched = s.dispatched := by
  unfold execute_command
  cases parse_command command with
  | none => exact ⟨Or.inl ⟨rfl, rfl⟩, rfl⟩
  | some p => exact dispatch_frame w p s

/-! ## The job table across calls -/

theorem take_set_self (l : List Int) (n : Nat) (a : Int) :
    (l.set n a).take n = l.take n := by
  induction l generalizing n with
  | nil => simp
  | cons x xs ih => cases n <;> simp [ih]

theorem TableLe.refl (s : ShellState) : TableLe s s :=
  ⟨Nat.le_refl _, rfl, rfl, fun h => h, fun _ => ⟨rfl, rfl⟩⟩

theorem TableLe.of_eq (s t : ShellState)
    (h1 : t.background_processes = s.background_processes)
    (h2 : t.bg_process_count = s.bg_process_count) : TableLe s t := by
  unfold TableLe
  rw [h1, h2]
  exact ⟨Nat.le_refl _, rfl, rfl, fun h => h, fun _ => ⟨rfl, rfl⟩⟩

theorem TableLe.trans (s t u : ShellState) (h1 : TableLe s t) (h2 : TableLe t u) :
    TableLe s u := by
  obtain ⟨a1, b1, c1, d1, e1⟩ := h1
  obtain ⟨a2, b2, c2, d2, e2⟩ := h2
  refine ⟨Nat.le_trans a1 a2, ?_, c2.trans c1, fun h => d2 (d1 h), ?_⟩
  · have h := congrArg (List.take s.bg_process_count) b2
    rw [List.take_take, List.take_take, Nat.min_eq_left a1] at h
    rw [h, b1]
  · intro h
    obtain ⟨x1, x2⟩ := e1 h
    obtain ⟨y1, y2⟩ := e2 (by omega)
    exact ⟨y1.trans x1, y2.trans x2⟩

theorem TableStep.le (s t : ShellState) (h : TableStep s t) : TableLe s t := by
  rcases h with ⟨h1, h2⟩ | ⟨h1, ⟨pid, h2⟩, h3⟩
  · exact TableLe.of_eq s t h1 h2
  · refine ⟨by omega, ?_, ?_, fun _ => by omega, fun h => by omega⟩
    · rw [h2, take_set_self]
    · rw [h2, List.length_set]

theorem run_commands_table (w : World) (cmds : List CmdRef) :
    ∀ (i : Nat) (s : ShellState), TableLe s (run_commands w i cmds s) := by
  induction cmds with
  | nil => intro i s; exact TableLe.refl s
  | cons c rest ih =>
    intro i s
    rw [run_commands]
    split_ifs with h1 h2
    · exact TableLe.refl s
    · exact ih _ s
    · have hstep := (execute_command_frame w (c.text w i)
        { s with dispatched := s.dispatched ++ [c] }).1
      have h0 : TableLe s { s with dispatched := s.dispatched ++ [c] } :=
        TableLe.of_eq _ _ rfl rfl
      exact TableLe.trans _ _ _ (TableLe.trans _ _ _ h0 (TableStep.le _ _ hstep)) (ih _ _)

theorem parse_and_execute_table (w : World) (input : CStr) (s : ShellState) :
    TableLe s (parse_and_execute w input s) := by
  unfold parse_and_execute
  cases split_commands input with
  | none => exact TableLe.of_eq _ _ rfl rfl
  | some cmds => exact run_commands_table w cmds 0 s

theorem main_loop_frame (reads : List (Option CStr)) :
    ∀ s : ShellState,
      (main_loop reads s).background_processes = s.background_processes ∧
      (main_loop reads s).bg_process_count = s.bg_process_count ∧
      (main_loop reads s).forks = s.forks ∧
      (main_loop reads s).status = s.status ∧
      (main_loop reads s).dispatched = s.dispatched := by
  induction reads with
  | nil => intro s; exact ⟨rfl, rfl, rfl, rfl, rfl⟩
  | cons r rest ih =>
    intro s
    cases r with
    | none =>
      rw [main_loop]
      exact ih _
    | some line =>
      rw [main_loop]
      exact ih _

/-! ## The splitting loop of `parse_and_execute` -/

theorem remaining_strtok_sep (d : Char) (saved : CStr) :
    remaining d (strtok [d] saved).1 (strtok [d] saved).2 = pieces d saved := by
  rcases strtok_spec d saved with ⟨h1, h2⟩ | ⟨t, r, h1, h2, _, _, _⟩
  · rw [h1]; simp [remaining, h2]
  · rw [h1]; simp [remaining, h2]

theorem queue_of_cons (seg : CStr) (rest : List CStr) :
    queue_of (seg :: rest) = queue_of [seg] ++ queue_of rest := by
  simp only [queue_of]
  split_ifs <;> simp

theorem queue_of_single_length (seg : CStr) : 1 ≤ (queue_of [seg]).length := by
  simp only [queue_of]
  split_ifs <;> simp

theorem split_loop_none (fuel : Nat) (saved : CStr) (cmds : List CmdRef) :
    split_loop (fuel + 1) none saved cmds = some cmds := rfl

theorem split_loop_full (fuel : Nat) (token saved : CStr) (cmds : List CmdRef)
    (h : ¬ cmds.length < MAX_ARGUMENTS - 1) :
    split_loop (fuel + 1) (some token) saved cmds = some cmds := by
  simp [split_loop, h]

theorem split_loop_some (fuel : Nat) (token saved : CStr) (cmds : List CmdRef)
    (h : cmds.length < MAX_ARGUMENTS - 1) :
    split_loop (fuel + 1) (some token) saved cmds =
      split_loop fuel (strtok [';'] saved).1 (strtok [';'] saved).2
        (cmds ++ queue_of [token]) := by
  simp only [split_loop, h, if_true, queue_of]
  split_ifs <;> simp

/-- As long as the queue fits below the bound, the splitting loop queues
exactly `queue_of` of the segments of the line. -/
theorem split_loop_eq_queue (fuel : Nat) :
    ∀ (tok : Option CStr) (saved : CStr) (cmds : List CmdRef),
      (remaining ';' tok saved).length < fuel →
      cmds.length + (queue_of (remaining ';' tok saved)).length ≤ MAX_ARGUMENTS - 1 →
      split_loop fuel tok saved cmds = some (cmds ++ queue_of (remaining ';' tok saved)) := by
  induction fuel with
  | zero => intro tok saved cmds h; omega
  | succ fuel ih =>
    intro tok saved cmds hf hb
    cases tok with
    | none => simp [split_loop, remaining, queue_of]
    | some token =>
      have hrem : remaining ';' (some token) saved = token :: pieces ';' saved := rfl
      rw [hrem] at hf hb ⊢
      rw [queue_of_cons] at hb ⊢
      simp only [List.length_cons, List.length_append] at hf hb
      have h1 := queue_of_single_length token
      rw [split_loop_some _ _ _ _ (by omega)]
      have hr := remaining_strtok_sep ';' saved
      have := ih (strtok [';'] saved).1 (strtok [';'] saved).2 (cmds ++ queue_of [token])
        (by rw [hr]; omega) (by rw [hr]; simp only [List.length_append]; omega)
      rw [hr] at this
      rw [this, List.append_assoc]

/-- The splitting loop always ends, with at most `MAX_ARGUMENTS` entries queued. -/
theorem split_loop_bound (fuel : Nat) :
    ∀ (tok : Option CStr) (saved : CStr) (cmds : List CmdRef),
      (remaining ';' tok saved).length < fuel →
      cmds.length ≤ MAX_ARGUMENTS →
      ∃ out, split_loop fuel tok saved cmds = some out ∧ out.length ≤ MAX_ARGUMENTS := by
  induction fuel with
  | zero => intro tok saved cmds h; omega
  | succ fuel ih =>
    intro tok saved cmds hf hb
    cases tok with
    | none => exact ⟨cmds, rfl, hb⟩
    | some token =>
      have hrem : remaining ';' (some token) saved = token :: pieces ';' saved := rfl
      rw [hrem] at hf
      simp only [List.length_cons] at hf
      by_cases hg : cmds.length < MAX_ARGUMENTS - 1
      · rw [split_loop_some _ _ _ _ hg]
        have hr := remaining_strtok_sep ';' saved
        have hq : (queue_of [token]).length ≤ 2 := by
          simp only [queue_of]; split_ifs <;> simp
        exact ih _ _ _ (by rw [hr]; omega)
          (by simp only [List.length_append, MAX_ARGUMENTS] at hg ⊢; omega)
      · rw [split_loop_full _ _ _ _ hg]
        exact ⟨cmds, rfl, hb⟩

theorem split_commands_eq_queue (input : CStr)
    (h : (queue_of (segments input)).length ≤ MAX_ARGUMENTS - 1) :
    split_commands input = some (queue_of (segments input)) := by
  unfold split_commands
  have hr := remaining_strtok_sep ';' input
  have hl := pieces_length_le ';' input
  have := split_loop_eq_queue (input.length + 1) (strtok [';'] input).1
    (strtok [';'] input).2 [] (by rw [hr]; omega)
    (by rw [hr]; simpa [segments] using h)
  rw [hr] at this
  simpa [segments] using this

theorem split_commands_total (input : CStr) :
    ∃ out, split_commands input = some out ∧ out.length ≤ MAX_ARGUMENTS := by
  unfold split_commands
  have hr := remaining_strtok_sep ';' input
  have hl := pieces_length_le ';' input
  exact split_loop_bound (input.length + 1) _ _ [] (by rw [hr]; omega) (by simp)

/-! ## Characters of tokens come from the text -/

theorem strtok_subset (d : Char) (s t r : CStr) (h : strtok [d] s = (some t, r)) :
    (∀ x ∈ t, x ∈ s) ∧ (∀ x ∈ r, x ∈ s) := by
  unfold strtok at h
  have hsuf := List.dropWhile_suffix (fun c => decide (c ∈ [d])) (l := s)
  cases hd : s.dropWhile (fun c => decide (c ∈ [d])) with
  | nil => rw [hd] at h; simp at h
  | cons c cs =>
    rw [hd] at h hsuf
    simp only [Prod.mk.injEq, Option.some.injEq] at h
    obtain ⟨ht, hr⟩ := h
    constructor
    · intro x hx
      rw [← ht] at hx
      exact hsuf.mem ((List.takeWhile_prefix _).mem hx)
    · intro x hx
      rw [← hr] at hx
      exact hsuf.mem ((List.dropWhile_suffix _).mem (List.mem_of_mem_tail hx))

theorem pieces_subset (d : Char) (s : CStr) :
    ∀ t ∈ pieces d s, ∀ x ∈ t, x ∈ s := by
  generalize h : s.length = n
  induction n using Nat.strong_induction_on generalizing s with
  | _ n ih =>
    rcases strtok_spec d s with ⟨_, h2⟩ | ⟨t, r, h1, h2, h3, _, _⟩
    · rw [h2]; intro t ht; simp at ht
    · rw [h2]
      have hsub := strtok_subset d s t r h1
      intro u hu x hx
      rcases List.mem_cons.mp hu with e | e
      · subst e; exact hsub.1 x hx
      · exact hsub.2 x (ih r.length (by omega) r rfl u e x hx)

theorem queue_of_segment_mem (segs : List CStr) (t : CStr)
    (h : CmdRef.segment t ∈ queue_of segs) : t ∈ segs := by
  induction segs with
  | nil => simp [queue_of] at h
  | cons seg rest ih =>
    simp only [queue_of] at h
    split_ifs at h
    · simp only [List.mem_cons, CmdRef.segment.injEq] at h
      rcases h with h | h | h
      · simp [h]
      · exact absurd h (by simp)
      · exact List.mem_cons_of_mem _ (ih h)
    · simp only [List.mem_cons, CmdRef.segment.injEq] at h
      rcases h with h | h
      · simp [h]
      · exact List.mem_cons_of_mem _ (ih h)

/-! ## The dispatch loop -/

theorem head_take_pos (l : List CStr) (n : Nat) (h : 0 < n) :
    (l.take n).head? = l.head? := by
  cases l with
  | nil => simp
  | cons x xs =>
    cases n with
    | zero => omega
    | succ m => simp

/-- Whether the interpreter survives a call of `execute_command`, in the
parent process: it does unless `argv[0]` is `quit`. -/
theorem execute_command_status (w : World) (text : CStr) (s : ShellState)
    (hrun : s.status = Status.running) (hfork : w.fork s.forks ≠ 0) :
    (is_quit text = true → (execute_command w text s).status = Status.exited 0) ∧
    (is_quit text = false → (execute_command w text s).status = Status.running) := by
  obtain ⟨p, hp, hargs⟩ := parse_command_total text
  have hhead : p.args.head? = (strip_markers (words text)).head? := by
    rw [hargs]; exact head_take_pos _ _ (by decide)
  unfold execute_command
  rw [hp]
  simp only []
  cases hcase : p.args with
  | nil =>
    rw [dispatch_nil w p s hcase]
    rw [hcase] at hhead
    refine ⟨fun hq => ?_, fun _ => hrun⟩
    simp [is_quit, ← hhead] at hq
  | cons a0 rest =>
    rw [hcase] at hhead
    have hq0 : is_quit text = decide (a0 = "quit".toList) := by
      simp [is_quit, ← hhead]
    by_cases hq : a0 = "quit".toList
    · subst hq
      rw [dispatch_quit w p s rest hcase]
      exact ⟨fun _ => rfl, fun h => by rw [hq0] at h; simp at h⟩
    · refine ⟨fun h => absurd (of_decide_eq_true (hq0 ▸ h)) hq, fun _ => ?_⟩
      by_cases hcd : a0 = "cd".toList
      · subst hcd
        obtain ⟨es, he⟩ := dispatch_cd w p s rest hcase
        rw [he]; exact hrun
      · rw [dispatch_external w p s a0 rest hcase hq hcd]
        rw [if_neg hfork]
        split_ifs
        · exact hrun
        · unfold parent_branch after_fork
          simp only [ShellState.emit]
          split_ifs <;> exact hrun

theorem run_commands_stopped (w : World) (i : Nat) (cmds : List CmdRef) (s : ShellState)
    (h : s.status ≠ Status.running) : run_commands w i cmds s = s := by
  cases cmds with
  | nil => rfl
  | cons c rest => rw [run_commands, if_pos h]

/-- In the parent process, when no text read contains a pipe and no read of
the expired `sleep` array finds a `quit` command, the dispatch loop hands the
queued entries to `execute_command` in order, up to and including the first
`quit`. -/
theorem run_commands_dispatched (w : World) (hfork : ∀ n, w.fork n ≠ 0)
    (hsleep : ∀ i, '|' ∉ w.sleep_bytes i ∧ is_quit (w.sleep_bytes i) = false)
    (cmds : List CmdRef) :
    ∀ (i : Nat) (s : ShellState),
      s.status = Status.running →
      (∀ t, CmdRef.segment t ∈ cmds → '|' ∉ t) →
      (run_commands w i cmds s).dispatched = s.dispatched ++ through_quit cmds := by
  induction cmds with
  | nil => intro i s _ _; simp [run_commands, through_quit]
  | cons c rest ih =>
    intro i s hrun hseg
    have htext : '|' ∉ c.text w i := by
      cases c with
      | segment t => exact hseg t (List.mem_cons_self _ _)
      | sleep => exact (hsleep i).1
    have hst := execute_command_status w (c.text w i)
      { s with dispatched := s.dispatched ++ [c] } hrun (hfork _)
    have hd := (execute_command_frame w (c.text w i)
      { s with dispatched := s.dispatched ++ [c] }).2
    rw [run_commands, if_neg (by simpa using hrun), if_neg htext]
    by_cases hq : is_quit (c.text w i) = true
    · have hstop := hst.1 hq
      rw [run_commands_stopped w _ rest _ (by rw [hstop]; simp), hd]
      cases c with
      | segment t =>
        have hq2 : is_quit t = true := hq
        simp [through_quit, hq2]
      | sleep =>
        have := (hsleep i).2
        simp only [CmdRef.text] at hq
        rw [this] at hq
        exact absurd hq (by simp)
    · have hq2 : is_quit (c.text w i) = false := by simpa using hq
      rw [ih (i + 1) _ (hst.2 hq2) (fun t ht => hseg t (List.mem_cons_of_mem _ ht)), hd]
      cases c with
      | segment t =>
        have hq3 : is_quit t = false := hq2
        simp [through_quit, hq3]
      | sleep => simp [through_quit]

theorem strtok_no_sep (d c : Char) (cs : CStr) (hc : c ≠ d) (h : d ∉ cs) :
    strtok [d] (c :: cs) = (some (c :: cs), []) := by
  have hall : ∀ x ∈ c :: cs, (!decide (x ∈ [d])) = true := by
    intro x hx
    have : x ≠ d := by
      rintro rfl
      rcases List.mem_cons.mp hx with h1 | h1
      · exact hc h1.symm
      · exact h h1
    simp [this]
  have h1 : (c :: cs).takeWhile (fun x => !decide (x ∈ [d])) = c :: cs :=
    List.takeWhile_eq_self_iff.mpr hall
  have h2 : (c :: cs).dropWhile (fun x => !decide (x ∈ [d])) = [] :=
    List.dropWhile_eq_nil_iff.mpr hall
  have h0 : (c :: cs).dropWhile (fun x => decide (x ∈ [d])) = c :: cs := by
    simp [hc]
  unfold strtok
  rw [h0]
  simp only []
  rw [h1, h2]
  rfl

theorem split_commands_single (line : CStr) (hne : line ≠ []) (h : ';' ∉ line) :
    split_commands line = some (queue_of [line]) := by
  cases line with
  | nil => exact absurd rfl hne
  | cons c cs =>
    have hc : c ≠ ';' := fun e => h (by simp [e])
    have hcs : ';' ∉ cs := fun e => h (by simp [e])
    unfold split_commands
    rw [strtok_no_sep ';' c cs hc hcs]
    simp only [List.length_cons]
    rw [split_loop_some _ _ _ _ (by decide), strtok_nil, split_loop_none]
    rfl

/-! ## Claims -/

/-- C1: for every command string with fewer than 99 space-separated words, the
parsing loop of `execute_command` returns exactly what the left-to-right
reference parser `ref_parse` computes on the words of the command: a `<` (resp.
`>`) stores the following token, whatever it is, as the input (resp. output)
path and that token is neither an argument nor a marker; a trailing `<` or `>`
is dropped; an unconsumed `&` sets the background flag; every other token is
appended to `args` in order. -/
theorem parse_command_eq_ref_parse (command : CStr)
    (h : (words command).length < MAX_ARGUMENTS - 1) :
    parse_command command = some (ref_parse (words command) Parsed.init) := by
  unfold parse_command
  have hr := remaining_strtok command
  have hl := pieces_length_le ' ' command
  have := parse_loop_eq_ref (command.length + 1) (strtok [' '] command).1
    (strtok [' '] command).2 Parsed.init (by rw [hr]; unfold words; omega)
    (by rw [hr]; simp only [Parsed.init, List.length_nil]; omega)
  rw [hr] at this
  exact this

theorem parse_command_eq_ref_parse_witness :
    (words "a < < b > & c <".toList).length < MAX_ARGUMENTS - 1 ∧
    parse_command "a < < b > & c <".toList =
      some (ref_parse (words "a < < b > & c <".toList) Parsed.init) ∧
    ref_parse (words "a < < b > & c <".toList) Parsed.init =
      { args := ["a".toList, "b".toList, "c".toList], input_file := some "<".toList,
        output_file := some "&".toList, background := false } :=
  ⟨by decide, parse_command_eq_ref_parse "a < < b > & c <".toList (by decide), by decide⟩

/-- C2 (counterexamples): the line `cat < f` has no pipe and no semicolon yet
two entries are handed to `execute_command` (the second one is the synthetic
`sleep 0.2`); the empty line leads to no call at all; a tab is not a
delimiter, so `ls<TAB>-l` yields the single argument `ls<TAB>-l` although its
whitespace-delimited tokens are `ls` and `-l`; and a line of 100 words yields
only 99 arguments. -/
theorem single_descriptor_counterexample :
    ('|' ∉ "cat < f".toList ∧ ';' ∉ "cat < f".toList ∧
      (parse_and_execute World.friendly "cat < f".toList ShellState.init).dispatched =
        [CmdRef.segment "cat < f".toList, CmdRef.sleep]) ∧
    (parse_and_execute World.friendly [] ShellState.init).dispatched = [] ∧
    ((parse_command "ls\t-l".toList).map Parsed.args = some ["ls\t-l".toList] ∧
      strip_markers (whitespace_tokens "ls\t-l".toList) = ["ls".toList, "-l".toList]) ∧
    ((strip_markers (whitespace_tokens hundred_words)).length = 100 ∧
      (parse_command hundred_words).map (fun p => p.args.length) = some 99) := by
  decide

/-- C2 (amended): for every non-empty input line without `|` and `;`, handed to
a running interpreter, `parse_and_execute` passes the line itself to
`execute_command` exactly once; the only further call it can make is one on
the synthetic `sleep 0.2` entry, and only when the line contains `<`.  The
`args` built from the line are its space-delimited words (runs of spaces
collapsed) with all recognised markers removed, cut off after
`MAX_ARGUMENTS - 1 = 99` entries. -/
theorem single_descriptor (w : World) (line : CStr) (s : ShellState)
    (hne : line ≠ []) (hpipe : '|' ∉ line) (hsemi : ';' ∉ line)
    (hrun : s.status = Status.running) :
    ((parse_and_execute w line s).dispatched = s.dispatched ++ [CmdRef.segment line] ∨
      ('<' ∈ line ∧
        (parse_and_execute w line s).dispatched =
          s.dispatched ++ [CmdRef.segment line, CmdRef.sleep])) ∧
    ∃ q, parse_command line = some q ∧
      q.args = (strip_markers (words line)).take (MAX_ARGUMENTS - 1) := by
  refine ⟨?_, parse_command_total line⟩
  unfold parse_and_execute
  rw [split_commands_single line hne hsemi]
  have hr : ¬ (s.status ≠ Status.running) := by simpa using hrun
  have hE := (execute_command_frame w line
    { s with dispatched := s.dispatched ++ [CmdRef.segment line] }).2
  simp only [queue_of]
  by_cases hlt : '<' ∈ line
  · rw [if_pos hlt, run_commands, if_neg hr]
    simp only [CmdRef.text]
    rw [if_neg hpipe]
    generalize execute_command w line
      { s with dispatched := s.dispatched ++ [CmdRef.segment line] } = E at hE ⊢
    rw [run_commands]
    simp only [CmdRef.text]
    by_cases hst : E.status = Status.running
    · rw [if_neg (by simpa using hst)]
      by_cases hp2 : '|' ∈ w.sleep_bytes (0 + 1)
      · left
        rw [if_pos hp2, run_commands, hE]
      · right
        refine ⟨hlt, ?_⟩
        rw [if_neg hp2, run_commands, (execute_command_frame w _ _).2]
        simp [hE]
    · left
      rw [if_pos (by simpa using hst), hE]
  · rw [if_neg hlt, run_commands, if_neg hr]
    simp only [CmdRef.text]
    rw [if_neg hpipe, run_commands, hE]
    left; rfl

theorem single_descriptor_witness :
    ((parse_and_execute World.friendly "ls  -l > out &".toList ShellState.init).dispatched =
        ShellState.init.dispatched ++ [CmdRef.segment "ls  -l > out &".toList] ∨
      ('<' ∈ "ls  -l > out &".toList ∧
        (parse_and_execute World.friendly "ls  -l > out &".toList ShellState.init).dispatched =
          ShellState.init.dispatched ++
            [CmdRef.segment "ls  -l > out &".toList, CmdRef.sleep])) ∧
    ∃ q, parse_command "ls  -l > out &".toList = some q ∧
      q.args = (strip_markers (words "ls  -l > out &".toList)).take (MAX_ARGUMENTS - 1) :=
  single_descriptor World.friendly "ls  -l > out &".toList ShellState.init
    (by decide) (by decide) (by decide) (by decide)

/-- C3 (the code never does it): whatever `fgets` returns, the loop of `main`
only prints prompts and read errors; no line is handed on, no entry is
dispatched, no process is created and the job table is untouched.  For the
single line `ls` the whole trace is the prompt and the read. -/
theorem main_never_dispatches (reads : List (Option CStr)) (s : ShellState) :
    (main_loop reads s).dispatched = s.dispatched ∧
    (main_loop reads s).forks = s.forks ∧
    (main_loop reads s).bg_process_count = s.bg_process_count ∧
    main_loop [some "ls\n".toList] ShellState.init =
      { ShellState.init with
        trace := [Event.stdout "> ", Event.fgets (some "ls\n".toList)] } := by
  have h := main_loop_frame reads s
  exact ⟨h.2.2.2.2, h.2.2.1, h.2.1, by decide⟩

/-- C4 (counterexamples): for `sort < in;ls`, in a world where the expired
array `sleep` still reads `sleep 0.2`, the dispatched entries include the
synthetic `sleep` entry, which is no segment of the line; for `quit;ls` the
segment `ls` is never dispatched; and of one hundred segments only the first
99 are dispatched. -/
theorem dispatch_order_counterexample :
    (segments "sort < in;ls".toList = ["sort < in".toList, "ls".toList] ∧
      (parse_and_execute World.friendly "sort < in;ls".toList ShellState.init).dispatched =
        [CmdRef.segment "sort < in".toList, CmdRef.sleep, CmdRef.segment "ls".toList]) ∧
    (segments "quit;ls".toList = ["quit".toList, "ls".toList] ∧
      (parse_and_execute World.friendly "quit;ls".toList ShellState.init).dispatched =
        [CmdRef.segment "quit".toList]) ∧
    ((segments hundred_segments).length = 100 ∧
      (parse_and_execute World.friendly hundred_segments ShellState.init).dispatched =
        List.replicate 99 (CmdRef.segment ['a'])) := by
  decide

/-- C4 (amended): take an input line without `|` whose queue fits below the
bound (at most 99 entries, synthetic ones included), handed to a running
interpreter and followed in the interpreter itself (no `fork` returns 0),
every read of the expired array `sleep` finding a command without `|` whose
`argv[0]` is not `quit` (as `sleep 0.2` is).  Then the entries that
`parse_and_execute` dispatches are exactly, in order and each once: the
non-empty `;`-separated segments of the line in textual order, every segment
that contains `<` being followed by one synthetic `sleep` entry, up to and
including the first segment whose `argv[0]` is `quit` (all of them when there
is none). -/
theorem dispatch_order (w : World) (line : CStr) (s : ShellState)
    (hpipe : '|' ∉ line)
    (hfit : (queue_of (segments line)).length ≤ MAX_ARGUMENTS - 1)
    (hrun : s.status = Status.running)
    (hfork : ∀ n, w.fork n ≠ 0)
    (hsleep : ∀ i, '|' ∉ w.sleep_bytes i ∧ is_quit (w.sleep_bytes i) = false) :
    (parse_and_execute w line s).dispatched =
      s.dispatched ++ through_quit (queue_of (segments line)) := by
  unfold parse_and_execute
  rw [split_commands_eq_queue line hfit]
  exact run_commands_dispatched w hfork hsleep (queue_of (segments line)) 0 s hrun
    (fun t ht hx =>
      hpipe (pieces_subset ';' line t (queue_of_segment_mem _ _ ht) _ hx))

theorem dispatch_order_witness :
    (parse_and_execute World.friendly "ls;cat < f ;quit now;pwd".toList
        ShellState.init).dispatched =
      ShellState.init.dispatched ++
        through_quit (queue_of (segments "ls;cat < f ;quit now;pwd".toList)) ∧
    through_quit (queue_of (segments "ls;cat < f ;quit now;pwd".toList)) =
      [CmdRef.segment "ls".toList, CmdRef.segment "cat < f ".toList, CmdRef.sleep,
        CmdRef.segment "quit now".toList] :=
  ⟨dispatch_order World.friendly "ls;cat < f ;quit now;pwd".toList ShellState.init
    (by decide) (by decide) rfl
    (fun n => by simp only [World.friendly]; omega)
    (fun _ => ⟨(by decide : '|' ∉ sleep_text), (by decide : is_quit sleep_text = false)⟩),
   by decide⟩

/-- C5 (the code never does it): a segment that contains `|` (and neither `;`
nor `<`) is skipped by `parse_and_execute`: the state, trace included, is left
as it was, so no stage is launched and no process is created. -/
theorem pipeline_not_launched (w : World) (line : CStr) (s : ShellState)
    (hpipe : '|' ∈ line) (hsemi : ';' ∉ line) (hlt : '<' ∉ line) :
    parse_and_execute w line s = s := by
  have hne : line ≠ [] := by rintro rfl; simp at hpipe
  unfold parse_and_execute
  rw [split_commands_single line hne hsemi]
  simp only [queue_of]
  rw [if_neg hlt, run_commands]
  simp only [CmdRef.text]
  split_ifs
  · rfl
  · rw [run_commands]

theorem pipeline_not_launched_witness :
    parse_and_execute World.friendly "ls | wc".toList ShellState.init = ShellState.init :=
  pipeline_not_launched World.friendly "ls | wc".toList ShellState.init
    (by decide) (by decide) (by decide)

/-- C6 (counterexample): the command `exit` is not a built-in: `execute_command`
forks a child and waits for it, prints no farewell, and the interpreter keeps
running. -/
theorem exit_is_external :
    (parse_command "exit".toList).map Parsed.args = some ["exit".toList] ∧
    (execute_command World.friendly "exit".toList ShellState.init).trace =
      [Event.fork 1000, Event.waitpid 1000] ∧
    (execute_command World.friendly "exit".toList ShellState.init).status = Status.running := by
  decide

/-- C6 (amended): for every command whose `args[0]` is `quit`, `execute_command`
prints the farewell line and ends the interpreter with status 0; nothing else
happens: no `fork`, no change of the job table, whatever the other arguments,
redirections, background flag and table contents are. -/
theorem quit_terminates (w : World) (command : CStr) (s : ShellState) (p : Parsed)
    (rest : List CStr) (hp : parse_command command = some p)
    (h0 : p.args = "quit".toList :: rest) :
    execute_command w command s =
      { s with
        trace := s.trace ++ [Event.stdout "Exiting shell...\n", Event.exit 0]
        status := Status.exited 0 } := by
  unfold execute_command
  rw [hp]
  exact dispatch_quit w p s rest h0

theorem quit_terminates_witness :
    execute_command World.friendly "quit now < in > out &".toList ShellState.full =
      { ShellState.full with
        trace := ShellState.full.trace ++ [Event.stdout "Exiting shell...\n", Event.exit 0]
        status := Status.exited 0 } :=
  quit_terminates World.friendly "quit now < in > out &".toList ShellState.full
    { args := ["quit".toList, "now".toList], input_file := some "in".toList,
      output_file := some "out".toList, background := true }
    ["now".toList] (by decide) rfl

/-- C7: for every command whose `args` is non-empty with `args[0]` neither
`quit` nor `cd`, and whose `fork` returns a positive pid, `execute_command`
does exactly one of two things.  Foreground: the trace gains the `fork` and one
`waitpid` on that pid, nothing is printed and the job table is unchanged.
Background: the trace gains the `fork` and one printed line reporting the pid,
there is no `waitpid`, and the pid is stored at index `bg_process_count`, which
is then incremented, when the table is not full (otherwise the table is
unchanged). -/
theorem parent_waits_or_registers (w : World) (command : CStr) (s : ShellState)
    (p : Parsed) (a0 : CStr) (rest : List CStr)
    (hp : parse_command command = some p) (h0 : p.args = a0 :: rest)
    (hq : a0 ≠ "quit".toList) (hcd : a0 ≠ "cd".toList)
    (hpid : 0 < w.fork s.forks) :
    (p.background = false →
      execute_command w command s =
        { s with
          trace := s.trace ++ [Event.fork (w.fork s.forks), Event.waitpid (w.fork s.forks)]
          forks := s.forks + 1 }) ∧
    (p.background = true →
      execute_command w command s =
        { s with
          trace := s.trace ++ [Event.fork (w.fork s.forks),
            Event.stdout ("[PID " ++ toString (w.fork s.forks) ++ "] Running in background\n")]
          forks := s.forks + 1
          background_processes :=
            if s.bg_process_count < MAX_BG_PROCESSES
            then s.background_processes.set s.bg_process_count (w.fork s.forks)
            else s.background_processes
          bg_process_count :=
            if s.bg_process_count < MAX_BG_PROCESSES
            then s.bg_process_count + 1 else s.bg_process_count }) := by
  unfold execute_command
  rw [hp]
  simp only []
  rw [dispatch_external w p s a0 rest h0 hq hcd, if_neg (by omega), if_neg (by omega)]
  unfold parent_branch after_fork
  simp only [ShellState.emit]
  constructor
  · intro hb
    rw [hb]
    simp
  · intro hb
    rw [hb]
    simp only [if_true]
    split_ifs <;> simp

theorem parent_waits_or_registers_witness :
    execute_command World.friendly "ls -l > out".toList ShellState.init =
      { ShellState.init with
        trace := ShellState.init.trace ++ [Event.fork (World.friendly.fork ShellState.init.forks),
          Event.waitpid (World.friendly.fork ShellState.init.forks)]
        forks := ShellState.init.forks + 1 } ∧
    execute_command World.friendly "sleep 5 &".toList ShellState.init =
      { ShellState.init with
        trace := ShellState.init.trace ++ [Event.fork (World.friendly.fork ShellState.init.forks),
          Event.stdout ("[PID " ++ toString (World.friendly.fork ShellState.init.forks) ++
            "] Running in background\n")]
        forks := ShellState.init.forks + 1
        background_processes :=
          if ShellState.init.bg_process_count < MAX_BG_PROCESSES
          then ShellState.init.background_processes.set ShellState.init.bg_process_count
            (World.friendly.fork ShellState.init.forks)
          else ShellState.init.background_processes
        bg_process_count :=
          if ShellState.init.bg_process_count < MAX_BG_PROCESSES
          then ShellState.init.bg_process_count + 1 else ShellState.init.bg_process_count } :=
  ⟨(parent_waits_or_registers World.friendly "ls -l > out".toList ShellState.init
      { args := ["ls".toList, "-l".toList], input_file := none,
        output_file := some "out".toList, background := false }
      "ls".toList ["-l".toList] (by decide) rfl (by decide) (by decide) (by decide)).1 rfl,
   (parent_waits_or_registers World.friendly "sleep 5 &".toList ShellState.init
      { args := ["sleep".toList, "5".toList], input_file := none,
        output_file := none, background := true }
      "sleep".toList ["5".toList] (by decide) rfl (by decide) (by decide) (by decide)).2 rfl⟩

theorem reachable_table (s : ShellState) (h : Reachable s) : TableLe ShellState.init s := by
  induction h with
  | init => exact TableLe.refl _
  | command w command s _ ih =>
    exact TableLe.trans _ _ _ ih (TableStep.le _ _ (execute_command_frame w command s).1)
  | line w input s _ ih =>
    exact TableLe.trans _ _ _ ih (parse_and_execute_table w input s)
  | main reads s _ ih =>
    have h := main_loop_frame reads s
    exact TableLe.trans _ _ _ ih (TableLe.of_eq _ _ h.1 h.2.1)

/-- C8: in every state reachable from the initial one the job table is within
capacity: `bg_process_count ≤ MAX_BG_PROCESSES = 100` and the array keeps its
100 slots; a call of `execute_command` either leaves the table alone or writes
one pid at index `bg_process_count < 100` and increments the count; and a
background command launched while the count is 100 is still forked and
reported, with the table's contents and count unchanged. -/
theorem job_table_bounded :
    (∀ s, Reachable s →
      s.bg_process_count ≤ MAX_BG_PROCESSES ∧
      s.background_processes.length = MAX_BG_PROCESSES) ∧
    (∀ (w : World) (command : CStr) (s : ShellState),
      ((execute_command w command s).background_processes = s.background_processes ∧
        (execute_command w command s).bg_process_count = s.bg_process_count) ∨
      (s.bg_process_count < MAX_BG_PROCESSES ∧
        (∃ pid : Int, (execute_command w command s).background_processes =
          s.background_processes.set s.bg_process_count pid) ∧
        (execute_command w command s).bg_process_count = s.bg_process_count + 1)) ∧
    (∀ (w : World) (command : CStr) (s : ShellState) (p : Parsed) (a0 : CStr)
      (rest : List CStr),
      parse_command command = some p → p.args = a0 :: rest →
      a0 ≠ "quit".toList → a0 ≠ "cd".toList → p.background = true →
      0 < w.fork s.forks → s.bg_process_count = MAX_BG_PROCESSES →
      execute_command w command s =
        { s with
          trace := s.trace ++ [Event.fork (w.fork s.forks),
            Event.stdout ("[PID " ++ toString (w.fork s.forks) ++ "] Running in background\n")]
          forks := s.forks + 1 }) := by
  refine ⟨fun s hs => ?_, fun w command s => (execute_command_frame w command s).1, ?_⟩
  · obtain ⟨_, _, hlen, hcap, _⟩ := reachable_table s hs
    exact ⟨hcap (by decide), by rw [hlen]; rfl⟩
  · intro w command s p a0 rest hp h0 hq hcd hb hpid hfull
    unfold execute_command
    rw [hp]
    simp only []
    rw [dispatch_external w p s a0 rest h0 hq hcd, if_neg (by omega), if_neg (by omega)]
    unfold parent_branch after_fork
    simp only [ShellState.emit, hb, if_true, hfull]
    simp [MAX_BG_PROCESSES]

theorem job_table_bounded_witness :
    ((execute_command World.friendly "sleep 5 &".toList ShellState.init).bg_process_count
        ≤ MAX_BG_PROCESSES ∧
      (execute_command World.friendly "sleep 5 &".toList
        ShellState.init).background_processes.length = MAX_BG_PROCESSES) ∧
    execute_command World.friendly "sleep 5 &".toList ShellState.full =
      { ShellState.full with
        trace := ShellState.full.trace ++ [Event.fork (World.friendly.fork ShellState.full.forks),
          Event.stdout ("[PID " ++ toString (World.friendly.fork ShellState.full.forks) ++
            "] Running in background\n")]
        forks := ShellState.full.forks + 1 } :=
  ⟨job_table_bounded.1 _ (Reachable.command World.friendly "sleep 5 &".toList _ Reachable.init),
   job_table_bounded.2.2 World.friendly "sleep 5 &".toList ShellState.full
    { args := ["sleep".toList, "5".toList], input_file := none,
      output_file := none, background := true }
    "sleep".toList ["5".toList] (by decide) rfl (by decide) (by decide) rfl
    (by decide) rfl⟩

/-- C9 (the code never does it): nothing ever leaves the job table.  Across
any call of `parse_and_execute` the count does not decrease and the entries
registered before stay where they are; the loop of `main` does not touch the
table; and once the count is 100 no line changes the table any more, so a
background command launched then is not registered, whatever happened to the
earlier jobs: after 101 lines `sleep 0 &` from the initial state the count is
100, 101 processes were forked and the pid of the last one is not in the
table. -/
theorem no_reclamation (w : World) (input : CStr) (reads : List (Option CStr))
    (s : ShellState) :
    s.bg_process_count ≤ (parse_and_execute w input s).bg_process_count ∧
    (parse_and_execute w input s).background_processes.take s.bg_process_count =
      s.background_processes.take s.bg_process_count ∧
    (main_loop reads s).bg_process_count = s.bg_process_count ∧
    (main_loop reads s).background_processes = s.background_processes ∧
    (parse_and_execute w "sleep 0 &".toList ShellState.full).background_processes =
      ShellState.full.background_processes ∧
    (parse_and_execute w "sleep 0 &".toList ShellState.full).bg_process_count =
      MAX_BG_PROCESSES ∧
    (run_lines World.friendly (List.replicate 101 "sleep 0 &".toList)
        ShellState.init).bg_process_count = MAX_BG_PROCESSES ∧
    (run_lines World.friendly (List.replicate 101 "sleep 0 &".toList)
        ShellState.init).forks = 101 ∧
    World.friendly.fork 100 ∉
      (run_lines World.friendly (List.replicate 101 "sleep 0 &".toList)
        ShellState.init).background_processes := by
  obtain ⟨h1, h2, _, _, _⟩ := parse_and_execute_table w input s
  have hm := main_loop_frame reads s
  obtain ⟨_, _, _, _, h5⟩ := parse_and_execute_table w "sleep 0 &".toList ShellState.full
  have h6 := h5 (Nat.le_refl _)
  exact ⟨h1, h2, hm.2.1, hm.1, h6.1, h6.2, by decide, by decide, by decide⟩

/-- C10 (the code breaks it): the splitting loop always ends with
`command_count ≤ 100`, but 100 is reached: for 98 plain segments followed by a
segment containing `<`, the last iteration starts at `command_count = 98`,
writes the segment at index 98 and the `sleep` entry at index 99, and the
terminator write `commands[command_count] = NULL` then uses index 100, one past
the end of the 100-element array. -/
theorem command_count_reaches_capacity :
    (∀ input, ∃ n, command_count input = some n ∧ n ≤ MAX_ARGUMENTS) ∧
    overflow_line.length = 197 ∧
    command_count overflow_line = some MAX_ARGUMENTS := by
  refine ⟨fun input => ?_, by decide, by decide⟩
  obtain ⟨out, h1, h2⟩ := split_commands_total input
  exact ⟨out.length, by simp [command_count, h1], h2⟩

end Shell
